import Mathlib

/-!
# Verification of the adk-coding-agent memory core

Shallow embedding of the episodic/semantic memory store of the
`easeaico/adk-coding-agent` repository (package `internal/memory`), together
with theorems settling the frozen claims about it.

Modelling conventions:
* A Go `float32` is represented by its 32-bit pattern, a `Nat` bounded by
  `2 ^ 32`; every arithmetic claim about float values is stated over an
  abstract arithmetic structure (`Arith`) so that only IEEE-754 facts that
  are actually used (commutativity of multiplication) appear as hypotheses.
* A Go `[]byte` or `string` is a `List Nat` of byte values; a `[]float32`
  is a `List Nat` of bit patterns (codec level) or a `List α` of abstract
  values (similarity level).
* Database rows are explicit Lean structures; the SQL engine's
  `WHERE`/`ORDER BY` behaviour and Go's `sort.Slice` are modelled by their
  documented contracts (filtering, sorted permutation).
-/

/-! ## Vector codec (`encodeVector` / `decodeVector`, sqlite backend)

Go source (`internal/memory/postgres.go`, SQLite part):
`encodeVector` writes each `float32` as 4 little-endian bytes of its IEEE
bit pattern (`binary.LittleEndian.PutUint32(buf[i*4:], math.Float32bits(f))`);
`decodeVector` rejects `nil`, empty, and non-multiple-of-4 buffers and
otherwise reads each 4-byte little-endian group back
(`math.Float32frombits(binary.LittleEndian.Uint32(b[i*4:]))`).
A float value is represented here by its 32-bit pattern, so the codec is a
pure `Nat`-level function and "bit-exact" round-trip is literal equality. -/

/-- The 4 little-endian bytes of a 32-bit word, as written by
`binary.LittleEndian.PutUint32`. -/
def toBytes4 (x : Nat) : List Nat :=
  [x % 256, x / 256 % 256, x / 65536 % 256, x / 16777216 % 256]

/-- `encodeVector`: each element (bit pattern) becomes 4 little-endian bytes,
concatenated with no header or padding. `encodeVector []` is the empty
buffer, matching `encodeVector(nil) = nil` / zero-length `buf`. -/
def encodeVector : List Nat → List Nat
  | [] => []
  | x :: v => toBytes4 x ++ encodeVector v

/-- `binary.LittleEndian.Uint32`: rebuild a 32-bit word from 4 bytes. -/
def fromBytes4 (b0 b1 b2 b3 : Nat) : Nat :=
  b0 + 256 * b1 + 65536 * b2 + 16777216 * b3

/-- The decode loop of `decodeVector`: read each consecutive 4-byte group. -/
def decodeGroups : List Nat → List Nat
  | b0 :: b1 :: b2 :: b3 :: rest => fromBytes4 b0 b1 b2 b3 :: decodeGroups rest
  | _ => []

/-- `decodeVector`: `nil`/empty or corrupt (length not a multiple of 4)
buffers decode to "no vector" (`nil`, here the empty list); otherwise each
little-endian 4-byte group is one element. -/
def decodeVector (b : List Nat) : List Nat :=
  if b.length = 0 ∨ b.length % 4 ≠ 0 then [] else decodeGroups b

theorem encodeVector_length (v : List Nat) :
    (encodeVector v).length = 4 * v.length := by
  induction v with
  | nil => rfl
  | cons x v ih => simp [encodeVector, toBytes4, ih]; omega

theorem fromBytes4_toBytes4 (x : Nat) (h : x < 4294967296) :
    fromBytes4 (x % 256) (x / 256 % 256) (x / 65536 % 256)
      (x / 16777216 % 256) = x := by
  unfold fromBytes4
  omega

theorem decodeGroups_encodeVector (v : List Nat)
    (h : ∀ x ∈ v, x < 4294967296) :
    decodeGroups (encodeVector v) = v := by
  induction v with
  | nil => rfl
  | cons x v ih =>
      have hx : x < 4294967296 := h x (List.mem_cons_self x v)
      have hv : ∀ y ∈ v, y < 4294967296 := fun y hy => h y (List.mem_cons_of_mem x hy)
      have hstep : decodeGroups (encodeVector (x :: v)) =
          fromBytes4 (x % 256) (x / 256 % 256) (x / 65536 % 256)
            (x / 16777216 % 256) :: decodeGroups (encodeVector v) := rfl
      rw [hstep, fromBytes4_toBytes4 x hx, ih hv]

/-- **C1.** Vector codec round trip: for every vector of (finite or not)
float32 values, represented bit-exactly by their 32-bit patterns,
`decodeVector (encodeVector v) = v`.  This covers the empty vector (`nil`
and `[]` both denote the zero-length vector here: `encodeVector` yields the
empty buffer and `decodeVector` of it yields no vector, i.e. the empty
vector), and since elements are raw bit patterns, subnormal and negative
float values round-trip bit-exactly. -/
theorem decodeVector_encodeVector (v : List Nat)
    (h : ∀ x ∈ v, x < 4294967296) :
    decodeVector (encodeVector v) = v := by
  cases v with
  | nil => rfl
  | cons x v =>
      have hlen : (encodeVector (x :: v)).length = 4 * (v.length + 1) := by
        rw [encodeVector_length]; simp
      rw [decodeVector, if_neg]
      · exact decodeGroups_encodeVector _ h
      · rw [hlen]; push_neg; omega

/-- Witness for C1 at a concrete vector: the bit patterns of `-1.5`
(`0xBFC00000`), the smallest positive subnormal (`0x00000001`) and a
negative subnormal (`0x80000001`). -/
theorem decodeVector_encodeVector_witness :
    (∀ x ∈ [3217031168, 1, 2147483649], x < 4294967296) ∧
      decodeVector (encodeVector [3217031168, 1, 2147483649]) =
        [3217031168, 1, 2147483649] :=
  ⟨by decide, decodeVector_encodeVector [3217031168, 1, 2147483649] (by decide)⟩

/-! ## UTF-8 and the task-signature generator

`SQLiteStore.SaveExperience` (postgres.go, SQLite part) and the store.go
variant of `PostgresStore.SaveExperience` build the task signature with
`runes := []rune(signature); if len(runes) > 50 { signature = string(runes[:50]) }`,
while `PostgresStore.SaveExperience` in postgres.go uses the byte-level
`if len(signature) > 50 { signature = signature[:50] }`.
Go strings are byte sequences; `[]rune` is UTF-8 decoding (invalid bytes
become U+FFFD, advancing one byte) and `string(rs)` is UTF-8 encoding.
Both conversions are embedded below, following `unicode/utf8`'s accepted
ranges (first byte classes, second-byte restrictions for `E0/ED/F0/F4`). -/

/-- Is `b` a UTF-8 continuation byte (`0x80..0xBF`)? -/
def isCont (b : Nat) : Bool := decide (128 ≤ b) && decide (b ≤ 191)

/-- Accepted second-byte range after a 3-byte leader `b` (`0xE0..0xEF`):
`E0 → A0..BF`, `ED → 80..9F` (no surrogates), otherwise `80..BF`. -/
def acceptE (b c1 : Nat) : Bool :=
  if b = 224 then decide (160 ≤ c1) && decide (c1 ≤ 191)
  else if b = 237 then decide (128 ≤ c1) && decide (c1 ≤ 159)
  else isCont c1

/-- Accepted second-byte range after a 4-byte leader `b` (`0xF0..0xF4`):
`F0 → 90..BF`, `F4 → 80..8F` (≤ U+10FFFF), otherwise `80..BF`. -/
def acceptF (b c1 : Nat) : Bool :=
  if b = 240 then decide (144 ≤ c1) && decide (c1 ≤ 191)
  else if b = 244 then decide (128 ≤ c1) && decide (c1 ≤ 143)
  else isCont c1

/-- UTF-8 encoding of one code point (Go `utf8.EncodeRune` on a valid
Unicode scalar value). -/
def utf8EncodeChar (c : Nat) : List Nat :=
  if c < 128 then [c]
  else if c < 2048 then [192 + c / 64, 128 + c % 64]
  else if c < 65536 then [224 + c / 4096, 128 + c / 64 % 64, 128 + c % 64]
  else [240 + c / 262144, 128 + c / 4096 % 64, 128 + c / 64 % 64, 128 + c % 64]

/-- UTF-8 encoding of a code-point sequence (Go `string(rs)` for a
`[]rune` of valid scalars). -/
def utf8Encode : List Nat → List Nat
  | [] => []
  | c :: cs => utf8EncodeChar c ++ utf8Encode cs

/-- Decode one rune at the head of a byte sequence (Go
`utf8.DecodeRuneInString` on `b :: rest`): a well-formed sequence yields
its code point and the bytes after it; anything malformed or truncated
yields U+FFFD (65533) with size 1, i.e. only `b` is consumed. -/
def utf8DecodeOne (b : Nat) (rest : List Nat) : Nat × List Nat :=
  if b < 128 then (b, rest)
  else if 194 ≤ b ∧ b ≤ 223 then
    match rest with
    | c1 :: r =>
      if isCont c1 then ((b - 192) * 64 + (c1 - 128), r) else (65533, rest)
    | [] => (65533, [])
  else if 224 ≤ b ∧ b ≤ 239 then
    match rest with
    | c1 :: c2 :: r =>
      if acceptE b c1 && isCont c2 then
        ((b - 224) * 4096 + (c1 - 128) * 64 + (c2 - 128), r)
      else (65533, rest)
    | _ => (65533, rest)
  else if 240 ≤ b ∧ b ≤ 244 then
    match rest with
    | c1 :: c2 :: c3 :: r =>
      if acceptF b c1 && isCont c2 && isCont c3 then
        ((b - 240) * 262144 + (c1 - 128) * 4096 + (c2 - 128) * 64 +
          (c3 - 128), r)
      else (65533, rest)
    | _ => (65533, rest)
  else (65533, rest)

/-- Decode loop with explicit fuel.  Each step consumes at least the lead
byte, so fuel `l.length` is always sufficient; fuel keeps the recursion
structural (and kernel-reducible). -/
def utf8DecodeFuel : Nat → List Nat → List Nat
  | 0, _ => []
  | _ + 1, [] => []
  | fuel + 1, b :: rest =>
    (utf8DecodeOne b rest).1 :: utf8DecodeFuel fuel (utf8DecodeOne b rest).2

/-- UTF-8 decoding of a byte sequence (Go `[]rune(s)`). -/
def utf8Decode (l : List Nat) : List Nat := utf8DecodeFuel l.length l

/-- One validity step (Go `utf8.ValidString` advancing over one rune):
`some r` when a well-formed sequence starts at `b` and `r` follows it. -/
def validStep (b : Nat) (rest : List Nat) : Option (List Nat) :=
  if b < 128 then some rest
  else if 194 ≤ b ∧ b ≤ 223 then
    match rest with
    | c1 :: r => if isCont c1 then some r else none
    | [] => none
  else if 224 ≤ b ∧ b ≤ 239 then
    match rest with
    | c1 :: c2 :: r => if acceptE b c1 && isCont c2 then some r else none
    | _ => none
  else if 240 ≤ b ∧ b ≤ 244 then
    match rest with
    | c1 :: c2 :: c3 :: r =>
      if acceptF b c1 && isCont c2 && isCont c3 then some r else none
    | _ => none
  else none

/-- Validity loop with explicit fuel, as for `utf8DecodeFuel`. -/
def validUTF8Fuel : Nat → List Nat → Bool
  | 0, l => l.isEmpty
  | _ + 1, [] => true
  | fuel + 1, b :: rest =>
    match validStep b rest with
    | some r => validUTF8Fuel fuel r
    | none => false

/-- UTF-8 validity of a byte sequence (Go `utf8.ValidString`, used by the
repository's fix-verification tests). -/
def validUTF8 (l : List Nat) : Bool := validUTF8Fuel l.length l

/-- Byte-based signature truncation of `PostgresStore.SaveExperience`
(postgres.go): `if len(signature) > 50 { signature = signature[:50] }`. -/
def pgSignature (pattern : List Nat) : List Nat :=
  if 50 < pattern.length then pattern.take 50 else pattern

/-- Rune-based signature truncation of `SQLiteStore.SaveExperience` and of
the store.go `PostgresStore.SaveExperience` variant:
`runes := []rune(signature); if len(runes) > 50 { signature = string(runes[:50]) }`. -/
def runeSignature (pattern : List Nat) : List Nat :=
  if 50 < (utf8Decode pattern).length then utf8Encode ((utf8Decode pattern).take 50)
  else pattern

/-- **C2** (code-bug evaluation at the failing input). For the pattern of
17 repetitions of U+9519 ("错", 3 bytes each, 51 bytes, 17 code points),
the byte-based `PostgresStore.SaveExperience` truncation (postgres.go)
violates the claim: the pattern has only 17 ≤ 50 code points yet is not
used unchanged, and the 50-byte cut falls inside a multi-byte character,
producing invalid UTF-8. The rune-based truncation used by the SQLite
strategy (and by the store.go variant, which the repository's
`store_fix_verification_test.go` presents as the fixed behaviour) leaves
the same pattern unchanged, as the claim requires. -/
theorem pgSignature_byte_truncation_bug :
    (utf8Decode (utf8Encode (List.replicate 17 38169))).length = 17 ∧
      pgSignature (utf8Encode (List.replicate 17 38169)) ≠
        utf8Encode (List.replicate 17 38169) ∧
      (pgSignature (utf8Encode (List.replicate 17 38169))).length = 50 ∧
      validUTF8 (pgSignature (utf8Encode (List.replicate 17 38169))) = false ∧
      runeSignature (utf8Encode (List.replicate 17 38169)) =
        utf8Encode (List.replicate 17 38169) := by decide

/-! ## SaveExperience as the inserted row (both strategies)

Both `SaveExperience` implementations compute the signature, then
unconditionally execute one `INSERT` with the five column values; there is
no validation branch.  The embedding therefore maps the call inputs to the
row that the insert persists. -/

/-- One row of `issue_history` as bound by the `INSERT` statement.  For the
SQLite strategy `embedding` holds the codec bytes; for the Postgres
strategy it holds the native vector (bit patterns). -/
structure IssueInsert where
  taskSignature : List Nat
  errorPattern : List Nat
  rootCause : List Nat
  solutionSummary : List Nat
  embedding : List Nat
deriving DecidableEq

/-- The row persisted by `SQLiteStore.SaveExperience`: rune-based
signature, the three texts as passed, and the codec-encoded vector. -/
def sqliteSaveExperience (pattern cause solution vector : List Nat) :
    IssueInsert :=
  ⟨runeSignature pattern, pattern, cause, solution, encodeVector vector⟩

/-- The row persisted by `PostgresStore.SaveExperience` (postgres.go):
byte-based signature, the three texts as passed, the native vector. -/
def pgSaveExperience (pattern cause solution vector : List Nat) :
    IssueInsert :=
  ⟨pgSignature pattern, pattern, cause, solution, vector⟩

/-- **C5** (counterexample). The claim says an all-empty insert is rejected
with an error or reduced to a no-op with no row persisted.  Neither
strategy has any such branch: the call with empty pattern, cause and
solution persists exactly one row — the all-empty row — in both backends
(the embedding returns the row bound by the unconditional `INSERT`). -/
theorem saveExperience_allEmpty_inserts :
    sqliteSaveExperience [] [] [] [] = ⟨[], [], [], [], []⟩ ∧
      pgSaveExperience [] [] [] [] = ⟨[], [], [], [], []⟩ := by decide

/-- **C5** (amended). Both strategies are unconditional: every call — the
all-empty call included — persists exactly one row whose pattern, cause
and solution columns are the argument strings unchanged (only the
signature and the embedding encoding are computed); no rejection or no-op
reduction exists. -/
theorem saveExperience_unconditional (pattern cause solution vector : List Nat) :
    (sqliteSaveExperience pattern cause solution vector).errorPattern = pattern ∧
      (sqliteSaveExperience pattern cause solution vector).rootCause = cause ∧
      (sqliteSaveExperience pattern cause solution vector).solutionSummary = solution ∧
      (pgSaveExperience pattern cause solution vector).errorPattern = pattern ∧
      (pgSaveExperience pattern cause solution vector).rootCause = cause ∧
      (pgSaveExperience pattern cause solution vector).solutionSummary = solution :=
  ⟨rfl, rfl, rfl, rfl, rfl, rfl⟩

/-! ## Cosine similarity (`cosineSimilarity`)

The Go function works on `float32`.  IEEE-754 arithmetic is embedded
abstractly: `Arith α` packages the operations used by the function
(`+`, `*`, `/`, `math.Sqrt`, the zero literal), and theorems assume only
the IEEE facts they need (commutativity of `*`).  The control flow —
the two guard returns and the single accumulation loop over the index
range — is embedded exactly. -/

/-- The arithmetic operations used by `cosineSimilarity`. -/
structure Arith (α : Type) where
  add : α → α → α
  mul : α → α → α
  div : α → α → α
  sqrt : α → α
  zero : α

/-- One iteration of the loop
`dot += a[i]*b[i]; normA += a[i]*a[i]; normB += b[i]*b[i]`. -/
def simStep (ops : Arith α) (acc : α × α × α) (p : α × α) : α × α × α :=
  (ops.add acc.1 (ops.mul p.1 p.2),
    ops.add acc.2.1 (ops.mul p.1 p.1),
    ops.add acc.2.2 (ops.mul p.2 p.2))

/-- The norm-square accumulation `n += x*x` over a list, from `init`. -/
def normSqAcc (ops : Arith α) (init : α) (a : List α) : α :=
  a.foldl (fun n x => ops.add n (ops.mul x x)) init

/-- The tail of `cosineSimilarity` after the accumulation loop, on the
state `(dot, normA, normB)`: return 0 when either norm is 0 (the explicit
division-by-zero guard), else `dot / (sqrt(normA) * sqrt(normB))`. -/
def cosineTail [DecidableEq α] (ops : Arith α) (acc : α × α × α) : α :=
  if acc.2.1 = ops.zero ∨ acc.2.2 = ops.zero then ops.zero
  else ops.div acc.1 (ops.mul (ops.sqrt acc.2.1) (ops.sqrt acc.2.2))

/-- `cosineSimilarity`: returns 0 when the lengths differ or are zero;
accumulates `dot`, `normA`, `normB` in one pass over the index range;
then the guarded division (`cosineTail`). -/
def cosineSimilarity [DecidableEq α] (ops : Arith α) (a b : List α) : α :=
  if a.length ≠ b.length ∨ a.length = 0 then ops.zero
  else cosineTail ops
    ((a.zip b).foldl (simStep ops) (ops.zero, ops.zero, ops.zero))

theorem foldl_simStep_swap (ops : Arith α)
    (hc : ∀ x y, ops.mul x y = ops.mul y x) :
    ∀ (l : List (α × α)) (d nA nB : α),
      (l.map Prod.swap).foldl (simStep ops) (d, nA, nB) =
        ((l.foldl (simStep ops) (d, nB, nA)).1,
          (l.foldl (simStep ops) (d, nB, nA)).2.2,
          (l.foldl (simStep ops) (d, nB, nA)).2.1) := by
  intro l
  induction l with
  | nil => intro d nA nB; rfl
  | cons p l ih =>
      intro d nA nB
      obtain ⟨x, y⟩ := p
      simp only [List.map_cons, List.foldl_cons, Prod.swap_prod_mk, simStep]
      rw [hc y x, hc y y, hc x x, ih]

theorem foldl_simStep_normA (ops : Arith α) :
    ∀ (a b : List α) (d nA nB : α), a.length = b.length →
      ((a.zip b).foldl (simStep ops) (d, nA, nB)).2.1 = normSqAcc ops nA a := by
  intro a
  induction a with
  | nil => intro b d nA nB _; rfl
  | cons x a ih =>
      intro b d nA nB hlen
      cases b with
      | nil => simp at hlen
      | cons y b =>
          simp only [List.zip_cons_cons, List.foldl_cons, simStep, normSqAcc,
            List.foldl_cons]
          exact ih b _ _ _ (by simpa using hlen)

theorem foldl_simStep_normB (ops : Arith α) :
    ∀ (a b : List α) (d nA nB : α), a.length = b.length →
      ((a.zip b).foldl (simStep ops) (d, nA, nB)).2.2 = normSqAcc ops nB b := by
  intro a
  induction a with
  | nil =>
      intro b d nA nB hlen
      cases b with
      | nil => rfl
      | cons y b => simp at hlen
  | cons x a ih =>
      intro b d nA nB hlen
      cases b with
      | nil => simp at hlen
      | cons y b =>
          simp only [List.zip_cons_cons, List.foldl_cons, simStep, normSqAcc,
            List.foldl_cons]
          exact ih b _ _ _ (by simpa using hlen)

/-- **C9.** `cosineSimilarity` is symmetric.  The dot product and both
norms are accumulated over the same index order, each commuted term is an
IEEE multiplication of the same two factors, and IEEE-754 multiplication
is commutative (bit-exactly); the theorem assumes exactly that fact about
the abstract multiplication and nothing else. -/
theorem cosineTail_swap [DecidableEq α] (ops : Arith α)
    (hc : ∀ x y, ops.mul x y = ops.mul y x) (d nA nB : α) :
    cosineTail ops (d, nB, nA) = cosineTail ops (d, nA, nB) := by
  simp only [cosineTail]
  by_cases h1 : nA = ops.zero
  · rw [if_pos (Or.inr h1), if_pos (Or.inl h1)]
  · by_cases h2 : nB = ops.zero
    · rw [if_pos (Or.inl h2), if_pos (Or.inr h2)]
    · rw [if_neg (fun h => h.elim h2 h1), if_neg (fun h => h.elim h1 h2)]
      rw [hc (ops.sqrt nB) (ops.sqrt nA)]

theorem cosineSimilarity_symm [DecidableEq α] (ops : Arith α)
    (hc : ∀ x y, ops.mul x y = ops.mul y x) (a b : List α) :
    cosineSimilarity ops a b = cosineSimilarity ops b a := by
  unfold cosineSimilarity
  by_cases hlen : a.length = b.length
  · by_cases hz : a.length = 0
    · have hbz : b.length = 0 := by rw [← hlen]; exact hz
      rw [if_pos (Or.inr hz), if_pos (Or.inr hbz)]
    · have hbz : ¬b.length = 0 := by rw [← hlen]; exact hz
      rw [if_neg (fun h => h.elim (fun h1 => h1 hlen) hz),
        if_neg (fun h => h.elim (fun h1 => h1 hlen.symm) hbz),
        (List.zip_swap a b).symm, foldl_simStep_swap ops hc]
      exact (cosineTail_swap ops hc _ _ _).symm
  · rw [if_pos (Or.inl hlen), if_pos (Or.inl (fun h => hlen h.symm))]

/-- Rational-number instantiation of the arithmetic, used by witnesses:
`+`, `*`, `/` are the field operations and `sqrt` is replaced by the
identity (no theorem about it is used). -/
def ratArith : Arith ℚ := ⟨(· + ·), (· * ·), (· / ·), id, 0⟩

/-- Witness for C9 at the concrete vectors `[1, 2]` and `[3, 5]` over ℚ,
the commutativity hypothesis discharged by `mul_comm`. -/
theorem cosineSimilarity_symm_witness :
    cosineSimilarity ratArith [(1 : ℚ), 2] [3, 5] =
      cosineSimilarity ratArith [3, 5] [(1 : ℚ), 2] :=
  cosineSimilarity_symm ratArith (fun x y => mul_comm x y) [(1 : ℚ), 2] [3, 5]

/-! ## Brute-force search (`SQLiteStore.SearchSimilarIssues`)

The SQL query selects every `issue_history` row `WHERE embedding IS NOT
NULL`; the scan decodes each blob, keeps candidates with
`len(storedVector) > 0 && len(storedVector) == len(queryVector)` and
scores them with `cosineSimilarity`; `sort.Slice` then sorts by
`results[i].score > results[j].score` — Go documents `sort.Slice` as
sorting by the given comparison (a sorted permutation, stability not
guaranteed), which is how the call is modelled here — and the first
`topK := min(limit, len(results))` entries are copied out;
`make([]Experience, topK)` panics when `topK` is negative, modelled by
`none`.  Pass-through columns are an opaque `payload`. -/

/-- One `issue_history` row as seen by the scan: the opaque pass-through
columns and the nullable embedding blob. -/
structure IssueRow (π : Type) where
  payload : π
  blob : Option (List Nat)

/-- Filter-and-score for one scanned row: rows with a NULL embedding are
excluded by the SQL `WHERE`; the blob is decoded
(`storedVector := decodeVector(embeddingBlob)`, its elements read back as
float values by `fromBits`); the candidate is kept only under
`len(storedVector) > 0 && len(storedVector) == len(queryVector)`, scored
with `cosineSimilarity(queryVector, storedVector)`. -/
def scoreRow [DecidableEq α] (ops : Arith α) (fromBits : Nat → α)
    (query : List α) (row : IssueRow π) : Option (π × α) :=
  match row.blob with
  | none => none
  | some blob =>
    if 0 < ((decodeVector blob).map fromBits).length ∧
        ((decodeVector blob).map fromBits).length = query.length then
      some (row.payload,
        cosineSimilarity ops query ((decodeVector blob).map fromBits))
    else none

/-- The candidate filter and scoring pass, in scan order. -/
def eligibleScored [DecidableEq α] (ops : Arith α) (fromBits : Nat → α)
    (query : List α) (rows : List (IssueRow π)) : List (π × α) :=
  rows.filterMap (scoreRow ops fromBits query)

/-- The `sort.Slice` comparison, as a non-strict order usable as a sort
post-condition: `x` may precede `y` when `y`'s score does not exceed
`x`'s (sorted output is exactly non-increasing scores). -/
def scoreGE [LinearOrder α] (x y : π × α) : Prop := y.2 ≤ x.2

instance [LinearOrder α] : DecidableRel (scoreGE (π := π) (α := α)) :=
  fun x y => inferInstanceAs (Decidable (y.2 ≤ x.2))

instance [LinearOrder α] : IsTotal (π × α) scoreGE :=
  ⟨fun a b => le_total b.2 a.2⟩

instance [LinearOrder α] : IsTrans (π × α) scoreGE :=
  ⟨fun _ _ _ hab hbc => le_trans hbc hab⟩

/-- Sorting and truncation tail of `SearchSimilarIssues`: sort the scored
candidates by score descending, take `topK := min(limit, len(results))`
entries; a negative `topK` makes `make([]Experience, topK)` panic
(`none`). -/
def rankTruncate [LinearOrder α] (results : List (π × α)) (limit : Int) :
    Option (List (π × α)) :=
  if min limit (results.length : Int) < 0 then none
  else some ((List.insertionSort scoreGE results).take
    (min limit (results.length : Int)).toNat)

/-- `SQLiteStore.SearchSimilarIssues`: scan, filter, score, rank,
truncate. -/
def searchSimilarIssues [LinearOrder α] (ops : Arith α) (fromBits : Nat → α)
    (rows : List (IssueRow π)) (query : List α) (limit : Int) :
    Option (List (π × α)) :=
  rankTruncate (eligibleScored ops fromBits query rows) limit

/-- **C3.** Brute-force ranking: for every query vector, candidate corpus
and (non-negative) limit `k`, the search succeeds and returns exactly
`min k (number of eligible candidates)` results in non-increasing
similarity order, and together with the candidates excluded by the
truncation (`rest`) the output is a permutation of all eligible scored
candidates, every excluded candidate's similarity being at most every
returned result's similarity. -/
theorem searchSimilarIssues_ranking [LinearOrder α] (ops : Arith α)
    (fromBits : Nat → α) (rows : List (IssueRow π)) (query : List α)
    (k : Nat) :
    ∃ out rest,
      searchSimilarIssues ops fromBits rows query (k : Int) = some out ∧
      out.length = min k (eligibleScored ops fromBits query rows).length ∧
      List.Sorted scoreGE out ∧
      (out ++ rest).Perm (eligibleScored ops fromBits query rows) ∧
      ∀ y ∈ rest, ∀ x ∈ out, y.2 ≤ x.2 := by
  set results := eligibleScored ops fromBits query rows with hresults
  set sorted := List.insertionSort scoreGE results with hsorted_def
  have hperm : sorted.Perm results := List.perm_insertionSort scoreGE results
  have hsorted : List.Sorted scoreGE sorted :=
    List.sorted_insertionSort scoreGE results
  have hslen : sorted.length = results.length := hperm.length_eq
  have htopk : (min (k : Int) (results.length : Int)).toNat =
      min k results.length := by omega
  refine ⟨sorted.take (min k results.length),
    sorted.drop (min k results.length), ?_, ?_, ?_, ?_, ?_⟩
  · unfold searchSimilarIssues rankTruncate
    rw [← hresults, if_neg (by omega), ← hsorted_def, htopk]
  · rw [List.length_take, hslen, min_assoc, min_self]
  · exact List.Pairwise.sublist (List.take_sublist _ _) hsorted
  · rw [List.take_append_drop]; exact hperm
  · intro y hy x hx
    have hpair : List.Pairwise scoreGE
        (sorted.take (min k results.length) ++
          sorted.drop (min k results.length)) := by
      rw [List.take_append_drop]; exact hsorted
    exact (List.pairwise_append.mp hpair).2.2 x hx y hy

/-- **C10.** The `limit ≥ 0` precondition: with a non-negative limit the
search returns (no panic) at most `limit` experiences; with a negative
limit `topK = min(limit, len(results))` is negative and
`make([]Experience, topK)` panics (`none`) — for every corpus, the empty
one included. -/
theorem searchSimilarIssues_limit_sign [LinearOrder α] (ops : Arith α)
    (fromBits : Nat → α) (rows : List (IssueRow π)) (query : List α)
    (limit : Int) :
    (0 ≤ limit → ∃ out,
      searchSimilarIssues ops fromBits rows query limit = some out ∧
        (out.length : Int) ≤ limit) ∧
    (limit < 0 → searchSimilarIssues ops fromBits rows query limit = none) := by
  unfold searchSimilarIssues rankTruncate
  set results := eligibleScored ops fromBits query rows with hresults
  constructor
  · intro hpos
    refine ⟨(List.insertionSort scoreGE results).take
      (min limit (results.length : Int)).toNat, ?_, ?_⟩
    · rw [if_neg (by omega)]
    · have hlt := List.length_take
        (min limit (results.length : Int)).toNat
        (List.insertionSort scoreGE results)
      omega
  · intro hneg
    rw [if_pos (by omega)]

/-- A float-value reading of bit patterns for witnesses over ℚ (any
function serves; theorems never constrain it). -/
def ratFromBits : Nat → ℚ := fun b => (b : ℚ)

/-- Witness for C10 on the empty corpus over ℚ: limit `-1` panics
(`none`) even there; limit `2` succeeds with at most 2 results. -/
theorem searchSimilarIssues_limit_sign_witness :
    searchSimilarIssues (π := Nat) ratArith ratFromBits [] [] (-1) = none ∧
      ∃ out, searchSimilarIssues (π := Nat) ratArith ratFromBits [] [] 2 =
          some out ∧ (out.length : Int) ≤ 2 :=
  ⟨(searchSimilarIssues_limit_sign ratArith ratFromBits [] [] (-1)).2
      (by decide),
    (searchSimilarIssues_limit_sign ratArith ratFromBits [] [] 2).1
      (by decide)⟩

/-- **C6.** Similarity guards and the candidate scan's skip:
(1) mismatched lengths give similarity exactly 0 (the guard returns
before any arithmetic, division included);
(2) a zero accumulated magnitude on either side gives exactly 0 (the
explicit division-by-zero guard);
(3) a stored candidate whose decoded vector is empty or of a length
different from the query contributes nothing to the search — the result
is the one the corpus without that candidate gives;
(4) such candidates never cause an error: the search still returns a
result for every non-negative limit. -/
theorem cosineSimilarity_guards_and_skip [LinearOrder α] (ops : Arith α)
    (fromBits : Nat → α) :
    (∀ a b : List α, a.length ≠ b.length →
      cosineSimilarity ops a b = ops.zero) ∧
    (∀ a b : List α,
      normSqAcc ops ops.zero a = ops.zero ∨
        normSqAcc ops ops.zero b = ops.zero →
      cosineSimilarity ops a b = ops.zero) ∧
    (∀ (pre post : List (IssueRow π)) (payload : π) (blob : List Nat)
      (query : List α) (limit : Int),
      (decodeVector blob).length = 0 ∨
        (decodeVector blob).length ≠ query.length →
      searchSimilarIssues ops fromBits
          (pre ++ ⟨payload, some blob⟩ :: post) query limit =
        searchSimilarIssues ops fromBits (pre ++ post) query limit) ∧
    (∀ (rows : List (IssueRow π)) (query : List α) (k : Nat),
      ∃ out, searchSimilarIssues ops fromBits rows query (k : Int) =
        some out) := by
  refine ⟨?_, ?_, ?_, ?_⟩
  · intro a b h
    unfold cosineSimilarity
    rw [if_pos (Or.inl h)]
  · intro a b h
    by_cases hlen : a.length = b.length
    · by_cases hz : a.length = 0
      · unfold cosineSimilarity
        rw [if_pos (Or.inr hz)]
      · unfold cosineSimilarity
        rw [if_neg (fun hg => hg.elim (fun h1 => h1 hlen) hz)]
        have h1 := foldl_simStep_normA ops a b ops.zero ops.zero ops.zero hlen
        have h2 := foldl_simStep_normB ops a b ops.zero ops.zero ops.zero hlen
        unfold cosineTail
        rw [h1, h2, if_pos h]
    · unfold cosineSimilarity
      rw [if_pos (Or.inl hlen)]
  · intro pre post payload blob query limit h
    have hnone : scoreRow (π := π) ops fromBits query ⟨payload, some blob⟩ =
        none := by
      have hmap : ((decodeVector blob).map fromBits).length =
          (decodeVector blob).length := List.length_map _ _
      simp only [scoreRow]
      rw [if_neg]
      intro hcon
      obtain ⟨hc1, hc2⟩ := hcon
      rcases h with h0 | h0 <;> omega
    have helig : eligibleScored (π := π) ops fromBits query
        (pre ++ ⟨payload, some blob⟩ :: post) =
        eligibleScored ops fromBits query (pre ++ post) := by
      unfold eligibleScored
      rw [List.filterMap_append, List.filterMap_append,
        List.filterMap_cons_none hnone]
    unfold searchSimilarIssues
    rw [helig]
  · intro rows query k
    refine ⟨(List.insertionSort scoreGE
        (eligibleScored ops fromBits query rows)).take
      (min (k : Int)
        ((eligibleScored ops fromBits query rows).length : Int)).toNat, ?_⟩
    unfold searchSimilarIssues rankTruncate
    rw [if_neg (by omega)]

/-- Witness for C6 over ℚ: a length-mismatched pair scores 0; a
zero-magnitude pair scores 0; a corpus whose only row decodes to the
empty vector (3 bytes, not a multiple of 4) searches exactly like the
empty corpus, with no error. -/
theorem cosineSimilarity_guards_and_skip_witness :
    cosineSimilarity ratArith [(1 : ℚ)] [1, 2] = ratArith.zero ∧
      cosineSimilarity ratArith [(0 : ℚ), 0] [1, 1] = ratArith.zero ∧
      searchSimilarIssues (π := Nat) ratArith ratFromBits
          [⟨0, some [1, 2, 3]⟩] [] 5 =
        searchSimilarIssues (π := Nat) ratArith ratFromBits [] [] 5 ∧
      ∃ out, searchSimilarIssues (π := Nat) ratArith ratFromBits
          [⟨0, some [1, 2, 3]⟩] [] ((5 : Nat) : Int) = some out :=
  ⟨(cosineSimilarity_guards_and_skip (π := Nat) ratArith ratFromBits).1
      [(1 : ℚ)] [1, 2] (by decide),
    (cosineSimilarity_guards_and_skip (π := Nat) ratArith ratFromBits).2.1
      [(0 : ℚ), 0] [1, 1]
      (Or.inl (by simp [normSqAcc, ratArith])),
    (cosineSimilarity_guards_and_skip (π := Nat) ratArith
        ratFromBits).2.2.1 [] [] 0 [1, 2, 3] [] 5 (Or.inl (by decide)),
    (cosineSimilarity_guards_and_skip (π := Nat) ratArith
        ratFromBits).2.2.2 [⟨0, some [1, 2, 3]⟩] [] 5⟩

/-! ## Ingestion policy (`Service.AddSession`, service.go)

The loop scans the session's events in order with three independent
updates per event: the last user-authored event with a non-empty text
part overwrites `userQuery` (texts of the event joined with `" "`), the
last non-user event with a non-empty text part overwrites
`agentResponse`, and any part whose function call is named
`save_experience` sets `hasExplicitSave`.  In the adk-go `session.Event`,
`Event` embeds `LLMResponse`, so `event.Content` and
`event.LLMResponse.Content` are one and the same field, modelled by one
`content`.  After the scan: an explicit save suppresses persistence; else
the record is persisted exactly when `userQuery != ""`,
`agentResponse != ""` and `len(agentResponse) > 20` (Go `len` = bytes).
The external embedder is a total function (its failure aborts the call
without persisting and is outside this embedding). -/

/-- One `genai.Part`: optional text (empty = absent) and an optional
function call carrying its name. -/
structure ContentPart where
  text : List Nat
  functionCall : Option (List Nat)
deriving DecidableEq

/-- One session event: author and the (nullable) content parts. -/
structure SessionEvent where
  author : List Nat
  content : Option (List ContentPart)
deriving DecidableEq

/-- The author string `"user"`. -/
def userAuthor : List Nat := [117, 115, 101, 114]

/-- The reserved tool name `"save_experience"`. -/
def saveExperienceName : List Nat :=
  [115, 97, 118, 101, 95, 101, 120, 112, 101, 114, 105, 101, 110, 99, 101]

/-- `extractTextFromContent` on one content: the non-empty text parts,
in order. -/
def extractTextFromContent (parts : List ContentPart) : List (List Nat) :=
  parts.filterMap fun p => if p.text ≠ [] then some p.text else none

/-- The scan state `(userQuery, agentResponse, hasExplicitSave)`. -/
structure ScanState where
  userQuery : List Nat
  agentResponse : List Nat
  hasExplicitSave : Bool

/-- One loop iteration of `AddSession` over one event. -/
def scanStep (st : ScanState) (e : SessionEvent) : ScanState :=
  { userQuery :=
      match e.content with
      | some parts =>
        if e.author = userAuthor ∧ extractTextFromContent parts ≠ [] then
          List.intercalate [32] (extractTextFromContent parts)
        else st.userQuery
      | none => st.userQuery
    agentResponse :=
      match e.content with
      | some parts =>
        if e.author ≠ userAuthor ∧ extractTextFromContent parts ≠ [] then
          List.intercalate [32] (extractTextFromContent parts)
        else st.agentResponse
      | none => st.agentResponse
    hasExplicitSave := st.hasExplicitSave ||
      match e.content with
      | some parts => parts.any fun p => p.functionCall = some saveExperienceName
      | none => false }

/-- The arguments of the one `SaveExperience` call `AddSession` makes. -/
structure SaveCall (α : Type) where
  pattern : List Nat
  cause : List Nat
  solution : List Nat
  vector : List α

/-- `Service.AddSession`: scan all events, then persist (the produced
`SaveCall`) if and only if no explicit save was seen, the captured query
is non-empty and the captured response has more than 20 bytes; `cause`
is always empty and the vector is the embedding of the query. -/
def addSession (embed : List Nat → List α) (events : List SessionEvent) :
    Option (SaveCall α) :=
  let st := events.foldl scanStep ⟨[], [], false⟩
  if st.hasExplicitSave then none
  else if st.userQuery ≠ [] ∧ st.agentResponse ≠ [] ∧
      20 < st.agentResponse.length then
    some ⟨st.userQuery, [], st.agentResponse, embed st.userQuery⟩
  else none

/-- The text one event contributes to the user-query capture: its joined
non-empty texts, provided the author is `"user"` and some text part is
non-empty. -/
def userEventText (e : SessionEvent) : Option (List Nat) :=
  match e.content with
  | some parts =>
    if e.author = userAuthor ∧ extractTextFromContent parts ≠ [] then
      some (List.intercalate [32] (extractTextFromContent parts))
    else none
  | none => none

/-- The text one event contributes to the response capture: its joined
non-empty texts, provided the author is not `"user"` and some text part
is non-empty. -/
def agentEventText (e : SessionEvent) : Option (List Nat) :=
  match e.content with
  | some parts =>
    if e.author ≠ userAuthor ∧ extractTextFromContent parts ≠ [] then
      some (List.intercalate [32] (extractTextFromContent parts))
    else none
  | none => none

/-- Does one event carry a `save_experience` function call? -/
def eventSave (e : SessionEvent) : Bool :=
  match e.content with
  | some parts => parts.any fun p => p.functionCall = some saveExperienceName
  | none => false

/-- The captured user query after the scan: the last contribution ("most
recent wins"), or the initial empty string. -/
def lastUserText (events : List SessionEvent) : List Nat :=
  (events.filterMap userEventText).getLastD []

/-- The captured response after the scan: the last contribution ("most
recent wins"), or the initial empty string. -/
def lastAgentText (events : List SessionEvent) : List Nat :=
  (events.filterMap agentEventText).getLastD []

/-- Does any event of the session carry a `save_experience` call? -/
def sessionHasSave (events : List SessionEvent) : Bool :=
  events.any eventSave

theorem scanStep_userQuery (st : ScanState) (e : SessionEvent) :
    (scanStep st e).userQuery = (userEventText e).getD st.userQuery := by
  cases e with
  | mk author content =>
      cases content with
      | none => rfl
      | some parts =>
          simp only [scanStep, userEventText]
          split
          · rfl
          · rfl

theorem scanStep_agentResponse (st : ScanState) (e : SessionEvent) :
    (scanStep st e).agentResponse =
      (agentEventText e).getD st.agentResponse := by
  cases e with
  | mk author content =>
      cases content with
      | none => rfl
      | some parts =>
          simp only [scanStep, agentEventText]
          split
          · rfl
          · rfl

theorem scanStep_hasExplicitSave (st : ScanState) (e : SessionEvent) :
    (scanStep st e).hasExplicitSave = (st.hasExplicitSave || eventSave e) := by
  cases e with
  | mk author content =>
      cases content with
      | none => rfl
      | some parts => rfl

theorem getLastD_filterMap_cons {β : Type} (f : β → Option (List Nat))
    (e : β) (l : List β) (d : List Nat) :
    (List.filterMap f (e :: l)).getLastD d =
      (List.filterMap f l).getLastD ((f e).getD d) := by
  rcases hfe : f e with _ | v
  · rw [List.filterMap_cons_none hfe]
    rfl
  · rw [List.filterMap_cons_some hfe]
    rcases List.filterMap f l with _ | ⟨x, xs⟩
    · rfl
    · rfl

theorem foldl_scanStep (events : List SessionEvent) :
    ∀ st : ScanState,
      events.foldl scanStep st =
        ⟨(events.filterMap userEventText).getLastD st.userQuery,
          (events.filterMap agentEventText).getLastD st.agentResponse,
          st.hasExplicitSave || sessionHasSave events⟩ := by
  induction events with
  | nil =>
      intro st
      simp only [List.foldl_nil, List.filterMap_nil, List.getLastD_nil,
        sessionHasSave, List.any_nil, Bool.or_false]
  | cons e events ih =>
      intro st
      rw [List.foldl_cons, ih (scanStep st e),
        getLastD_filterMap_cons, getLastD_filterMap_cons,
        scanStep_userQuery, scanStep_agentResponse]
      have hsv : ((scanStep st e).hasExplicitSave || sessionHasSave events) =
          (st.hasExplicitSave || sessionHasSave (e :: events)) := by
        rw [scanStep_hasExplicitSave, Bool.or_assoc]
        have hcons : sessionHasSave (e :: events) =
            (eventSave e || sessionHasSave events) := by
          rw [sessionHasSave, sessionHasSave, List.any_cons]
        rw [hcons]
      rw [hsv]

theorem addSession_eq {α : Type} (embed : List Nat → List α)
    (events : List SessionEvent) :
    addSession embed events =
      (if sessionHasSave events then none
       else if lastUserText events ≠ [] ∧ lastAgentText events ≠ [] ∧
           20 < (lastAgentText events).length then
         some ⟨lastUserText events, [], lastAgentText events,
           embed (lastUserText events)⟩
       else none) := by
  unfold addSession
  rw [foldl_scanStep events ⟨[], [], false⟩]
  rfl

/-- **C4** (amended). `AddSession` persists a record iff no event carries
a `save_experience` function call, the captured user query (text of the
last user-authored turn with non-empty text) is non-empty, and the
captured response (text of the last non-user turn with non-empty text) is
non-empty with more than 20 **bytes** (Go `len` on the UTF-8 string, not
code points); when it persists, exactly one record is produced with
pattern = the last user text, solution = the last non-user text, cause =
the empty string, and the embedding of the pattern. -/
theorem addSession_policy {α : Type} (embed : List Nat → List α)
    (events : List SessionEvent) :
    ((addSession embed events).isSome = true ↔
      (sessionHasSave events = false ∧ lastUserText events ≠ [] ∧
        lastAgentText events ≠ [] ∧ 20 < (lastAgentText events).length)) ∧
    ∀ call, addSession embed events = some call →
      call.pattern = lastUserText events ∧ call.cause = [] ∧
        call.solution = lastAgentText events ∧
        call.vector = embed (lastUserText events) := by
  rw [addSession_eq]
  by_cases hsv : sessionHasSave events
  · rw [if_pos hsv]
    constructor
    · constructor
      · intro h
        exact absurd h (by simp)
      · intro h
        rw [hsv] at h
        exact absurd h.1 (by simp)
    · intro call hcall
      exact absurd hcall (by simp)
  · rw [if_neg hsv]
    by_cases hcond : lastUserText events ≠ [] ∧ lastAgentText events ≠ [] ∧
        20 < (lastAgentText events).length
    · rw [if_pos hcond]
      refine ⟨⟨fun _ => ⟨by simpa using hsv, hcond.1, hcond.2.1, hcond.2.2⟩,
        fun _ => rfl⟩, ?_⟩
      intro call hcall
      obtain rfl := (Option.some.inj hcall).symm
      exact ⟨rfl, rfl, rfl, rfl⟩
    · rw [if_neg hcond]
      refine ⟨⟨fun h => absurd h (by simp), fun h => absurd ⟨h.2.1, h.2.2.1,
        h.2.2.2⟩ hcond⟩, ?_⟩
      intro call hcall
      exact absurd hcall (by simp)

/-- A concrete session: a user turn `"q"` followed by an `"assistant"`
turn whose text is ten U+9519 characters — 10 code points, 30 UTF-8
bytes. -/
def cjkSessionEvents : List SessionEvent :=
  [⟨userAuthor, some [⟨[113], none⟩]⟩,
    ⟨[97, 115, 115, 105, 115, 116, 97, 110, 116],
      some [⟨utf8Encode (List.replicate 10 38169), none⟩]⟩]

/-- **C4** (counterexample). On `cjkSessionEvents` the code persists a
record (`isSome`), yet the captured response has only 10 code points
("characters"), not more than 20: the claim's persistence condition
"response length exceeding 20 characters" is false here, so the claimed
equivalence fails — the code's threshold counts bytes (30), not
characters (10). -/
theorem addSession_char_threshold_counterexample :
    (addSession (fun _ => ([] : List Nat)) cjkSessionEvents).isSome = true ∧
      lastAgentText cjkSessionEvents =
        utf8Encode (List.replicate 10 38169) ∧
      (utf8Decode (lastAgentText cjkSessionEvents)).length = 10 ∧
      ¬20 < (utf8Decode (lastAgentText cjkSessionEvents)).length := by
  decide

/-- Witness for C4's amended theorem at `cjkSessionEvents`: the
equivalence applied with all four conditions discharged concretely. -/
theorem addSession_policy_witness :
    (addSession (fun _ => ([] : List Nat)) cjkSessionEvents).isSome = true :=
  (addSession_policy (fun _ => ([] : List Nat)) cjkSessionEvents).1.mpr
    ⟨by decide, by decide, by decide, by decide⟩

/-! ## Rule repository (`GetProjectRules`)

Both backends run
`SELECT rule_content FROM project_rules WHERE is_active ORDER BY priority DESC, category, id`.
The SQL engine is the external collaborator here; its documented
behaviour — keep exactly the active rows, order them by the total
comparator (priority descending, then category ascending in the binary
(bytewise) text collation, then id ascending) — is modelled by a filter
and a sort with that comparator. -/

/-- Bytewise (memcmp-with-length-tiebreak) strict order on byte strings:
SQLite's default BINARY collation for TEXT. -/
def bytesLT : List Nat → List Nat → Bool
  | [], [] => false
  | [], _ :: _ => true
  | _ :: _, [] => false
  | a :: as, b :: bs =>
    if a < b then true else if b < a then false else bytesLT as bs

theorem bytesLT_trans : ∀ a b c : List Nat,
    bytesLT a b = true → bytesLT b c = true → bytesLT a c = true := by
  intro a
  induction a with
  | nil =>
      intro b c hab hbc
      cases b with
      | nil => simp [bytesLT] at hab
      | cons y bs =>
          cases c with
          | nil => simp [bytesLT] at hbc
          | cons z cs => rfl
  | cons x as ih =>
      intro b c hab hbc
      cases b with
      | nil => simp [bytesLT] at hab
      | cons y bs =>
          cases c with
          | nil => simp [bytesLT] at hbc
          | cons z cs =>
              simp only [bytesLT] at hab hbc ⊢
              split_ifs at hab hbc ⊢ <;>
                first
                  | rfl
                  | omega
                  | exact ih bs cs hab hbc

theorem bytesLT_total_eq : ∀ a b : List Nat,
    bytesLT a b = false → bytesLT b a = false → a = b := by
  intro a
  induction a with
  | nil =>
      intro b hab _
      cases b with
      | nil => rfl
      | cons y bs => simp [bytesLT] at hab
  | cons x as ih =>
      intro b hab hba
      cases b with
      | nil => simp [bytesLT] at hba
      | cons y bs =>
          simp only [bytesLT] at hab hba
          split_ifs at hab hba
          have hxy : x = y := by omega
          rw [hxy, ih bs hab hba]

/-- One `project_rules` row. -/
structure ProjectRule where
  id : Nat
  category : List Nat
  ruleContent : List Nat
  priority : Int
  isActive : Bool
deriving DecidableEq

/-- The `ORDER BY priority DESC, category, id` comparator as a total
non-strict order: `x` precedes `y`. -/
def ruleLE (x y : ProjectRule) : Prop :=
  y.priority < x.priority ∨
    (x.priority = y.priority ∧
      (bytesLT x.category y.category = true ∨
        (x.category = y.category ∧ x.id ≤ y.id)))

instance : DecidableRel ruleLE := fun x y => by
  unfold ruleLE
  exact inferInstance

instance : IsTotal ProjectRule ruleLE := by
  constructor
  intro x y
  rcases lt_trichotomy x.priority y.priority with h | h | h
  · exact Or.inr (Or.inl h)
  · by_cases hc : bytesLT x.category y.category = true
    · exact Or.inl (Or.inr ⟨h, Or.inl hc⟩)
    · by_cases hc2 : bytesLT y.category x.category = true
      · exact Or.inr (Or.inr ⟨h.symm, Or.inl hc2⟩)
      · have hceq : x.category = y.category :=
          bytesLT_total_eq _ _ (by simpa using hc) (by simpa using hc2)
        rcases le_total x.id y.id with hi | hi
        · exact Or.inl (Or.inr ⟨h, Or.inr ⟨hceq, hi⟩⟩)
        · exact Or.inr (Or.inr ⟨h.symm, Or.inr ⟨hceq.symm, hi⟩⟩)
  · exact Or.inl (Or.inl h)

instance : IsTrans ProjectRule ruleLE := by
  constructor
  intro x y z hxy hyz
  rcases hxy with h1 | ⟨e1, hc1⟩
  · rcases hyz with h2 | ⟨e2, _⟩
    · exact Or.inl (lt_trans h2 h1)
    · exact Or.inl (by omega)
  · rcases hyz with h2 | ⟨e2, hc2⟩
    · exact Or.inl (by omega)
    · refine Or.inr ⟨e1.trans e2, ?_⟩
      rcases hc1 with hcat1 | ⟨ec1, hid1⟩
      · rcases hc2 with hcat2 | ⟨ec2, _⟩
        · exact Or.inl (bytesLT_trans _ _ _ hcat1 hcat2)
        · exact Or.inl (ec2 ▸ hcat1)
      · rcases hc2 with hcat2 | ⟨ec2, hid2⟩
        · exact Or.inl (ec1.symm ▸ hcat2)
        · exact Or.inr ⟨ec1.trans ec2, le_trans hid1 hid2⟩

/-- `GetProjectRules`: the active rows, ordered by the total comparator,
projected to `rule_content`. -/
def getProjectRules (rules : List ProjectRule) : List (List Nat) :=
  (List.insertionSort ruleLE (rules.filter fun r => r.isActive)).map
    (fun r => r.ruleContent)

/-- **C8.** Rule retrieval never returns an inactive rule and orders the
returned texts by priority descending, then category (bytewise)
ascending, then id ascending: the output is the projection of a sorted
permutation of exactly the active rows.  In particular, for rules with
priorities `[2, 1, 1]` and active flags `[true, true, false]`, exactly 2
rules are returned with the priority-2 rule first. -/
theorem getProjectRules_spec :
    (∀ rules : List ProjectRule, ∃ rs,
      getProjectRules rules = rs.map (fun r => r.ruleContent) ∧
      rs.Perm (rules.filter fun r => r.isActive) ∧
      List.Sorted ruleLE rs ∧
      ∀ r ∈ rs, r.isActive = true) ∧
    getProjectRules
        [⟨1, [97], [114, 49], 2, true⟩, ⟨2, [98], [114, 50], 1, true⟩,
          ⟨3, [99], [114, 51], 1, false⟩] = [[114, 49], [114, 50]] := by
  constructor
  · intro rules
    refine ⟨List.insertionSort ruleLE (rules.filter fun r => r.isActive),
      rfl, List.perm_insertionSort _ _, List.sorted_insertionSort _ _, ?_⟩
    intro r hr
    have hmem : r ∈ rules.filter (fun r => r.isActive) :=
      (List.perm_insertionSort ruleLE _).mem_iff.mp hr
    exact (List.mem_filter.mp hmem).2
  · decide

/-- Witness for C3 at the concrete empty corpus over ℚ with `k = 3`. -/
theorem searchSimilarIssues_ranking_witness :
    ∃ out rest,
      searchSimilarIssues (π := Nat) ratArith ratFromBits [] []
          ((3 : Nat) : Int) = some out ∧
      out.length = min 3
        (eligibleScored (π := Nat) ratArith ratFromBits [] []).length ∧
      List.Sorted scoreGE out ∧
      (out ++ rest).Perm
        (eligibleScored (π := Nat) ratArith ratFromBits [] []) ∧
      ∀ y ∈ rest, ∀ x ∈ out, y.2 ≤ x.2 :=
  searchSimilarIssues_ranking ratArith ratFromBits [] [] 3

/-- Witness for C8: the concrete conjunct of the theorem, at the
priorities `[2, 1, 1]` / active flags `[true, true, false]` table. -/
theorem getProjectRules_spec_witness :
    getProjectRules
        [⟨1, [97], [114, 49], 2, true⟩, ⟨2, [98], [114, 50], 1, true⟩,
          ⟨3, [99], [114, 51], 1, false⟩] = [[114, 49], [114, 50]] :=
  getProjectRules_spec.2
